import Mathlib

/-!
# Verification of a GF(2) polynomial error-correcting code

Shallow embedding of `src/main.py`: a (15,7) binary cyclic code demo built on
sympy GF(2) polynomial arithmetic and numpy matrices.

Conventions mirrored from the source:
* sympy represents a polynomial by its coefficient list **highest degree
  first**, and `all_coeffs()` returns exactly `degree + 1` coefficients
  (leading zeros stripped; the zero polynomial yields `[0]`).
* Internally we compute with **lowest degree first** lists (`trimR`, `addL`,
  `mulL`, `divModAux`); the wrappers `poly_mul`, `poly_div`, `poly_div_to_k`
  convert at the boundary, exactly like the Python functions that go through
  sympy `Poly` objects.
* numpy's `np.dot` demands matching shapes; a mismatch raises, which we model
  with `Option` (`none` = the Python call raises).
* The Python dict `error_syndromes[tuple(s)] = i` with `.get` is modelled as
  an association list to which bindings are appended in program order, looked
  up with last-binding-wins (`dictGet`) — observationally the dict semantics.
* `print` calls inside `decode` are modelled as a `List ConsoleLine` returned
  next to the function's Python return value.
-/

set_option maxHeartbeats 1000000

open Polynomial

abbrev Bit := ZMod 2

namespace GF2Code

/-- Drop trailing zero coefficients of a lowest-first coefficient list
(normal form: last coefficient, the leading one, is nonzero). -/
def trimR : List Bit → List Bit
  | [] => []
  | c :: t =>
    match trimR t with
    | [] => if c = 0 then [] else [c]
    | r => c :: r

/-- Coefficient-wise GF(2) addition (XOR) of lowest-first lists. -/
def addL : List Bit → List Bit → List Bit
  | [], l => l
  | l, [] => l
  | a :: as, b :: bs => (a + b) :: addL as bs

/-- Convolution product of lowest-first coefficient lists over GF(2). -/
def mulL : List Bit → List Bit → List Bit
  | [], _ => []
  | a :: as, b => addL (b.map (a * ·)) (0 :: mulL as b)

/-- Number of coefficients of the trimmed list: `degree + 1`, with `0` for
the zero polynomial. -/
def natDegL (l : List Bit) : Nat := (trimR l).length

/-- Multiply by `x^s`: prepend `s` zero coefficients (lowest-first). -/
def shiftL (s : Nat) (b : List Bit) : List Bit := List.replicate s 0 ++ b

/-- Lowest-first coefficient list of the monomial `x^k`. -/
def xPow (k : Nat) : List Bit := List.replicate k 0 ++ [1]

/-- Fuel-indexed GF(2) polynomial long division on lowest-first lists.
Each round cancels the dividend's leading term against the divisor shifted
up by the degree gap (over GF(2) addition is subtraction). -/
def divModAux : Nat → List Bit → List Bit → List Bit × List Bit
  | 0, a, _ => ([], a)
  | fuel + 1, a, b =>
    if natDegL b = 0 ∨ natDegL a < natDegL b then ([], a)
    else
      let s := natDegL a - natDegL b
      let qr := divModAux fuel (addL a (shiftL s b)) b
      (addL qr.1 (xPow s), qr.2)

/-- Euclidean division of GF(2) polynomials (lowest-first lists), the
mathematical operation performed by sympy's `div(..., domain=GF(2))`:
quotient and remainder with `a = q·b + r`, `deg r < deg b`. -/
def polyDivMod (a b : List Bit) : List Bit × List Bit := divModAux a.length a b

/-- sympy `Poly.all_coeffs()`: the `degree + 1` coefficients highest-first
(`[0]` for the zero polynomial), from a lowest-first list. -/
def allCoeffs (l : List Bit) : List Bit :=
  match trimR l with
  | [] => [0]
  | r => r.reverse

/-- Embedding of `poly_mul(a, b)` (src/main.py:31): multiply the sympy
polynomials with highest-first coefficient lists `a`, `b` over GF(2) and
return `all_coeffs()` of the product. -/
def poly_mul (a b : List Bit) : List Bit := allCoeffs (mulL a.reverse b.reverse)

/-- Embedding of `poly_div(a, b)` (src/main.py:21): quotient of the GF(2)
division of `a` by `b`, as `all_coeffs()` (highest-first). -/
def poly_div (a b : List Bit) : List Bit := allCoeffs (polyDivMod a.reverse b.reverse).1

/-- Embedding of `poly_div_to_k(k, g, n)` (src/main.py:5): remainder of
`x^k` divided by `g(x)` over GF(2), as `all_coeffs()` front-padded with
zeros to length `n`, then reversed by `np.flip`. -/
def poly_div_to_k (k : Nat) (g : List Bit) (n : Nat) : List Bit :=
  let remainder_coeffs := allCoeffs (polyDivMod (xPow k) g.reverse).2
  (List.replicate (n - remainder_coeffs.length) 0 ++ remainder_coeffs).reverse

/-- Matrices are row lists, as numpy 2-D arrays of 0/1 entries. -/
abbrev Mat := List (List Bit)

/-- Rows of the generator matrix `G` built by `generate_matrices`
(src/main.py:47): row `i` is zero except `G[i, i:i+len(g)] = g`. -/
def Gmat (n k : Nat) (g : List Bit) : Mat :=
  (List.range k).map fun i =>
    (List.range n).map fun j =>
      if i ≤ j ∧ j < i + g.length then g.getD (j - i) 0 else 0

/-- Rows of the parity-check matrix `H` built by `generate_matrices`
(src/main.py:51): `H[i][j] = poly_div_to_k(j, g, n)[i]`. -/
def Hmat (n k : Nat) (g : List Bit) : Mat :=
  (List.range (n - k)).map fun i =>
    (List.range n).map fun j => (poly_div_to_k j g n).getD i 0

/-- Embedding of `generate_matrices(n, k, g)` (src/main.py:43). `none`
models the Python call raising: a numpy broadcast error when some row
slice `i:i+len(g)` is shorter than `g`, a negative dimension in
`np.zeros((n-k, n))` when `n < k`, or sympy division by the zero
polynomial while filling `H`. -/
def generate_matrices (n k : Nat) (g : List Bit) : Option (Mat × Mat) :=
  if (1 ≤ k ∧ n < k - 1 + g.length) ∨ n < k ∨ (1 ≤ n ∧ g.all (· == 0) = true) then none
  else some (Gmat n k g, Hmat n k g)

/-- Inner product of two equal-length bit vectors (`np.dot` followed by
`% 2`, which is built into `ZMod 2`). -/
def dotL (a b : List Bit) : Bit := (List.zipWith (· * ·) a b).sum

/-- Matrix–vector product `np.dot(M, v) % 2`; `none` models the shape
mismatch `ValueError` when a row length differs from `len(v)`. -/
def matVec (M : Mat) (v : List Bit) : Option (List Bit) :=
  if M.all (fun row => row.length == v.length) then some (M.map fun row => dotL row v)
  else none

/-- numpy `np.flip(M)` on a 2-D array: reverse both axes. -/
def npFlip (M : Mat) : Mat := (M.map List.reverse).reverse

/-- Unit error vector `e_i` of length `n` (src/main.py:65). -/
def unitVec (n i : Nat) : List Bit := (List.range n).map fun j => if j = i then 1 else 0

/-- Embedding of `generate_error_syndromes(H, n)` (src/main.py:59): for each
position `i < n`, bind the syndrome `H · e_i (mod 2)` to `i` in the dict.
Dict assignment is modelled by appending the binding (`dictGet` takes the
last binding, as a Python dict does); `none` models a shape mismatch. -/
def generate_error_syndromes (H : Mat) (n : Nat) : Option (List (List Bit × Nat)) :=
  (List.range n).foldl
    (fun acc i =>
      match acc with
      | none => none
      | some d =>
        match matVec H (unitVec n i) with
        | none => none
        | some s => some (d ++ [(s, i)]))
    (some [])

/-- Python `dict.get(key, None)` for the association list built by
`generate_error_syndromes`: the value of the last binding of `key`. -/
def dictGet (d : List (List Bit × Nat)) (key : List Bit) : Option Nat :=
  (d.reverse.find? fun p => p.1 == key).map Prod.snd

/-- Embedding of `encode(data, g)` (src/main.py:71): just `poly_mul`. -/
def encode (data g : List Bit) : List Bit := poly_mul data g

/-- The statement `v[i] ^= 1` on a 0/1 vector: flip bit `i` (out-of-range
indices leave the vector unchanged, which no caller relies on). -/
def flipBit (v : List Bit) (i : Nat) : List Bit := v.set i (v.getD i 0 + 1)

/-- Console output produced inside `decode` (src/main.py:92-97), one
constructor per `print` statement. -/
inductive ConsoleLine where
  | correctedWord (w : List Bit)
  | correctedAt (i : Nat)
  | failedToCorrect
  | noErrors
  deriving DecidableEq, Repr

/-- Embedding of `decode(received, H, g)` (src/main.py:77). The first
component is the Python return value `poly_div(received, g)`; the second
component records what the function printed. `none` models `np.dot`
raising on a shape mismatch between the flipped `H` and `received`. -/
def decode (received : List Bit) (H : Mat) (g : List Bit) :
    Option (List Bit × List ConsoleLine) :=
  let Hf := npFlip H
  match matVec Hf received with
  | none => none
  | some syndrome =>
    if syndrome.any (· != 0) then
      match generate_error_syndromes Hf received.length with
      | none => none
      | some table =>
        match dictGet table syndrome with
        | some idx =>
          let corrected := flipBit received idx
          some (poly_div corrected g, [.correctedWord corrected, .correctedAt idx])
        | none => some (poly_div received g, [.failedToCorrect])
    else some (poly_div received g, [.noErrors])

/-- Generator polynomial of the demo configuration (src/main.py:103),
highest-first: `g(x) = x^8 + x^7 + x^6 + x^4 + 1`. -/
def gDemo : List Bit := [1, 1, 1, 0, 1, 0, 0, 0, 1]

/-- The demo message (src/main.py:107). -/
def demoMessage : List Bit := [1, 0, 1, 0, 1, 0, 1]

/-- Embedding of `main()` (src/main.py:101) with the hard-coded message
generalised to a parameter: build the matrices, reject a message whose
length is not `k = 7` before encoding, encode, flip bit 9 of the encoded
word (`none` if index 9 does not exist, as Python raises `IndexError`),
and decode. -/
def main_with (message : List Bit) : Option (List Bit × List ConsoleLine) :=
  match generate_matrices 15 7 gDemo with
  | none => none
  | some (_, H) =>
    if message.length ≠ 7 then none
    else
      let encoded := encode message gDemo
      if encoded.length ≤ 9 then none
      else decode (flipBit encoded 9) H gDemo

/-- Degree of the polynomial with highest-first coefficient list `g`
(`-1` standing in for sympy's `-oo` on the zero polynomial). -/
def polyDegree (g : List Bit) : Int := ((trimR g.reverse).length : Int) - 1

/-- Interpretation of a lowest-first coefficient list as a polynomial
over GF(2). -/
noncomputable def toPolyL : List Bit → Polynomial Bit
  | [] => 0
  | c :: t => Polynomial.C c + Polynomial.X * toPolyL t

/-- Interpretation of a highest-first (sympy-style) coefficient list. -/
noncomputable def toPolyHF (l : List Bit) : Polynomial Bit := toPolyL l.reverse

/-- Column `i` of `H` as the syndrome of the unit error vector `e_i`,
the quantity `generate_error_syndromes` binds to position `i`. -/
def syndromeCol (H : Mat) (n i : Nat) : List Bit := H.map fun row => dotL row (unitVec n i)

/-! ## Coefficients of `toPolyL` -/

theorem toPolyL_nil : toPolyL [] = 0 := rfl

theorem toPolyL_cons (c : Bit) (t : List Bit) :
    toPolyL (c :: t) = Polynomial.C c + Polynomial.X * toPolyL t := rfl

theorem coeff_toPolyL (l : List Bit) (i : Nat) : (toPolyL l).coeff i = l.getD i 0 := by
  induction l generalizing i with
  | nil => simp [toPolyL]
  | cons c t ih =>
    cases i with
    | zero => simp [toPolyL_cons, coeff_add, coeff_C, mul_comm, coeff_mul_X]
    | succ j => simp [toPolyL_cons, coeff_add, coeff_C, coeff_X_mul, ih]

theorem toPolyL_eq_zero_iff (l : List Bit) : toPolyL l = 0 ↔ ∀ i, l.getD i 0 = 0 := by
  constructor
  · intro h i
    have := coeff_toPolyL l i
    rw [h] at this
    simpa using this.symm
  · intro h
    ext i
    rw [coeff_toPolyL]
    simpa using h i

theorem toPolyL_addL (a b : List Bit) : toPolyL (addL a b) = toPolyL a + toPolyL b := by
  induction a generalizing b with
  | nil => simp [addL, toPolyL]
  | cons x xs ih =>
    cases b with
    | nil => simp [addL, toPolyL]
    | cons y ys =>
      simp only [addL, toPolyL_cons, ih, map_add, mul_add]
      ring

theorem toPolyL_map_mul (c : Bit) (l : List Bit) :
    toPolyL (l.map (c * ·)) = Polynomial.C c * toPolyL l := by
  induction l with
  | nil => simp [toPolyL]
  | cons x xs ih =>
    simp only [List.map_cons, toPolyL_cons, ih, map_mul]
    ring

theorem toPolyL_mulL (a b : List Bit) : toPolyL (mulL a b) = toPolyL a * toPolyL b := by
  induction a with
  | nil => simp [mulL, toPolyL]
  | cons x xs ih =>
    simp only [mulL, toPolyL_addL, toPolyL_map_mul, toPolyL_cons, ih, map_zero, zero_add]
    ring

theorem toPolyL_replicate_zero (s : Nat) : toPolyL (List.replicate s 0) = 0 := by
  induction s with
  | zero => rfl
  | succ m ih => simp [List.replicate_succ, toPolyL_cons, ih]

theorem toPolyL_append (a b : List Bit) :
    toPolyL (a ++ b) = toPolyL a + Polynomial.X ^ a.length * toPolyL b := by
  induction a with
  | nil => simp [toPolyL]
  | cons x xs ih =>
    simp only [List.cons_append, toPolyL_cons, ih, List.length_cons, pow_succ]
    ring

theorem toPolyL_shiftL (s : Nat) (b : List Bit) :
    toPolyL (shiftL s b) = Polynomial.X ^ s * toPolyL b := by
  simp [shiftL, toPolyL_append, toPolyL_replicate_zero]

theorem toPolyL_xPow (k : Nat) : toPolyL (xPow k) = Polynomial.X ^ k := by
  simp [xPow, toPolyL_append, toPolyL_replicate_zero, toPolyL_cons, toPolyL_nil]

/-! ## The trimmed normal form -/

theorem trimR_eq_nil_iff (l : List Bit) : trimR l = [] ↔ toPolyL l = 0 := by
  rw [toPolyL_eq_zero_iff]
  induction l with
  | nil => simp [trimR]
  | cons c t ih =>
    constructor
    · intro h i
      rw [trimR] at h
      rcases ht : trimR t with _ | ⟨r, rs⟩
      · rw [ht] at h
        have hc : c = 0 := by
          by_contra hc
          simp [hc] at h
        cases i with
        | zero => simpa using hc
        | succ j => simpa using (ih.mp ht) j
      · rw [ht] at h
        exact absurd h (by simp)
    · intro h
      have hc : c = 0 := by simpa using h 0
      have ht : trimR t = [] := ih.mpr fun i => by simpa using h (i + 1)
      simp [trimR, ht, hc]

theorem toPolyL_trimR (l : List Bit) : toPolyL (trimR l) = toPolyL l := by
  induction l with
  | nil => rfl
  | cons c t ih =>
    cases ht : trimR t with
    | nil =>
      have h0 : toPolyL t = 0 := (trimR_eq_nil_iff t).mp ht
      have h2 : trimR (c :: t) = if c = 0 then [] else [c] := by rw [trimR, ht]
      rw [h2]
      by_cases hc : c = 0 <;>
        simp [hc, toPolyL_cons, toPolyL_nil, h0]
    | cons r rs =>
      have h2 : trimR (c :: t) = c :: r :: rs := by rw [trimR, ht]
      rw [h2, toPolyL_cons, show (r :: rs : List Bit) = trimR t from ht.symm, ih,
        toPolyL_cons]

theorem getLast_trimR_ne_zero (l : List Bit) (c : Bit) (h : (trimR l).getLast? = some c) :
    c ≠ 0 := by
  induction l with
  | nil => simp [trimR] at h
  | cons x t ih =>
    rw [trimR] at h
    rcases ht : trimR t with _ | ⟨r, rs⟩
    · rw [ht] at h
      by_cases hx : x = 0
      · simp [hx] at h
      · simp [hx] at h
        rw [← h]
        exact hx
    · rw [ht] at h
      rw [List.getLast?_cons_cons] at h
      exact ih (ht ▸ h)

theorem getD_trimR (l : List Bit) (i : Nat) : (trimR l).getD i 0 = l.getD i 0 := by
  rw [← coeff_toPolyL, ← coeff_toPolyL, toPolyL_trimR]

theorem getD_eq_zero_of_natDegL_le (l : List Bit) (i : Nat) (h : natDegL l ≤ i) :
    l.getD i 0 = 0 := by
  rw [← getD_trimR]
  exact List.getD_eq_default _ _ h

theorem natDegL_eq_zero_iff (l : List Bit) : natDegL l = 0 ↔ toPolyL l = 0 := by
  rw [natDegL, List.length_eq_zero, trimR_eq_nil_iff]

theorem getD_addL (a b : List Bit) (i : Nat) :
    (addL a b).getD i 0 = a.getD i 0 + b.getD i 0 := by
  rw [← coeff_toPolyL, ← coeff_toPolyL, ← coeff_toPolyL, toPolyL_addL, coeff_add]

theorem getD_shiftL (s : Nat) (b : List Bit) (i : Nat) :
    (shiftL s b).getD i 0 = if i < s then 0 else b.getD (i - s) 0 := by
  unfold shiftL
  by_cases h : i < s
  · rw [if_pos h, List.getD_append _ _ _ _ (by simpa using h)]
    simp
  · rw [if_neg h, List.getD_append_right _ _ _ _ (by simpa using Nat.le_of_not_lt h),
      List.length_replicate]

theorem getLast_of_trimmed (l : List Bit) (h : trimR l ≠ []) :
    l.getD (natDegL l - 1) 0 = 1 := by
  obtain ⟨c, hc⟩ : ∃ c, (trimR l).getLast? = some c := by
    cases hl : (trimR l).getLast? with
    | none => exact absurd (List.getLast?_eq_none_iff.mp hl) h
    | some c => exact ⟨c, rfl⟩
  have hcne : c ≠ 0 := getLast_trimR_ne_zero l c hc
  have hc1 : c = 1 := by revert hcne; exact fun hh => (by decide : ∀ x : Bit, x ≠ 0 → x = 1) c hh
  have hlen : 0 < (trimR l).length := List.length_pos.mpr h
  have : (trimR l).getD ((trimR l).length - 1) 0 = c := by
    rw [List.getD_eq_getElem _ _ (by omega)]
    rw [List.getLast?_eq_getElem?] at hc
    have := List.getElem?_eq_getElem (l := trimR l) (n := (trimR l).length - 1) (by omega)
    rw [this] at hc
    exact (Option.some_inj.mp hc)
  rw [← hc1, ← this, natDegL, getD_trimR]

theorem natDegL_le_of_getD (l : List Bit) (d : Nat) (h : ∀ i, d ≤ i → l.getD i 0 = 0) :
    natDegL l ≤ d := by
  by_contra hlt
  have hne : trimR l ≠ [] := by
    intro hnil
    exact hlt (by rw [natDegL, hnil]; simp)
  have hlead := getLast_of_trimmed l hne
  rw [h (natDegL l - 1) (by omega)] at hlead
  exact absurd hlead (by decide)

theorem natDegL_eq_natDegree (l : List Bit) (h : toPolyL l ≠ 0) :
    natDegL l = (toPolyL l).natDegree + 1 := by
  have hne : trimR l ≠ [] := fun hh => h ((trimR_eq_nil_iff l).mp hh)
  have hlen : 0 < natDegL l := List.length_pos.mpr hne
  have hub : (toPolyL l).natDegree ≤ natDegL l - 1 := by
    rw [Polynomial.natDegree_le_iff_coeff_eq_zero]
    intro N hN
    rw [coeff_toPolyL]
    exact getD_eq_zero_of_natDegL_le l N (by omega)
  have hlb : natDegL l - 1 ≤ (toPolyL l).natDegree := by
    apply Polynomial.le_natDegree_of_ne_zero
    rw [coeff_toPolyL, getLast_of_trimmed l hne]
    decide
  omega

theorem eq_of_trimmed_toPolyL_eq (a b : List Bit) (ha : trimR a = a) (hb : trimR b = b)
    (h : toPolyL a = toPolyL b) : a = b := by
  by_cases h0 : toPolyL a = 0
  · have ha0 : a = [] := ha ▸ (trimR_eq_nil_iff a).mpr h0
    have hb0 : b = [] := hb ▸ (trimR_eq_nil_iff b).mpr (h ▸ h0)
    rw [ha0, hb0]
  · have hb0 : toPolyL b ≠ 0 := h ▸ h0
    have hlen : a.length = b.length := by
      have h1 := natDegL_eq_natDegree a h0
      have h2 := natDegL_eq_natDegree b hb0
      rw [natDegL, ha] at h1
      rw [natDegL, hb] at h2
      rw [h1, h2, h]
    apply List.ext_getElem hlen
    intro i h1 h2
    rw [← List.getD_eq_getElem a 0 h1, ← List.getD_eq_getElem b 0 h2,
      ← coeff_toPolyL, ← coeff_toPolyL, h]

theorem monic_of_ne_zero {p : Polynomial Bit} (h : p ≠ 0) : p.Monic := by
  have hne := Polynomial.leadingCoeff_ne_zero.mpr h
  exact (by decide : ∀ x : Bit, x ≠ 0 → x = 1) _ hne

theorem length_trimR_le (l : List Bit) : (trimR l).length ≤ l.length := by
  induction l with
  | nil => simp [trimR]
  | cons c t ih =>
    rw [trimR]
    rcases ht : trimR t with _ | ⟨r, rs⟩
    · by_cases hc : c = 0 <;> simp [hc]
    · rw [ht] at ih
      simpa using ih

/-! ## Correctness of the long division -/

theorem add_self_poly (p : Polynomial Bit) : p + p = 0 := by
  ext i
  simp only [Polynomial.coeff_add, Polynomial.coeff_zero]
  exact (by decide : ∀ x : Bit, x + x = 0) _

theorem divModAux_spec (fuel : Nat) (b : List Bit) (hb : toPolyL b ≠ 0) :
    ∀ a : List Bit, natDegL a ≤ fuel →
      toPolyL (divModAux fuel a b).1 * toPolyL b + toPolyL (divModAux fuel a b).2 = toPolyL a
        ∧ (toPolyL (divModAux fuel a b).2).degree < (toPolyL b).degree := by
  have hbne : trimR b ≠ [] := fun hh => hb ((trimR_eq_nil_iff b).mp hh)
  have hdb : 1 ≤ natDegL b := List.length_pos.mpr hbne
  have hbbot : (toPolyL b).degree ≠ ⊥ := fun hh => hb (Polynomial.degree_eq_bot.mp hh)
  induction fuel with
  | zero =>
    intro a ha
    have h0 : toPolyL a = 0 := (natDegL_eq_zero_iff a).mp (Nat.le_zero.mp ha)
    refine ⟨by simp [divModAux, toPolyL_nil, h0], ?_⟩
    show (toPolyL a).degree < (toPolyL b).degree
    rw [h0, Polynomial.degree_zero]
    exact Ne.bot_lt hbbot
  | succ m ih =>
    intro a ha
    by_cases hcond : natDegL b = 0 ∨ natDegL a < natDegL b
    · have hab : natDegL a < natDegL b := by
        rcases hcond with h1 | h2
        · exact absurd ((natDegL_eq_zero_iff b).mp h1) hb
        · exact h2
      have heq : divModAux (m + 1) a b = ([], a) := by rw [divModAux, if_pos hcond]
      rw [heq]
      refine ⟨by simp [toPolyL_nil], ?_⟩
      by_cases ha0 : toPolyL a = 0
      · rw [ha0, Polynomial.degree_zero]
        exact Ne.bot_lt hbbot
      · rw [Polynomial.degree_eq_natDegree ha0, Polynomial.degree_eq_natDegree hb]
        have h1 := natDegL_eq_natDegree a ha0
        have h2 := natDegL_eq_natDegree b hb
        exact_mod_cast (by omega : (toPolyL a).natDegree < (toPolyL b).natDegree)
    · push_neg at hcond
      obtain ⟨hbne0, hba'⟩ := hcond
      have hba : natDegL b ≤ natDegL a := hba'
      set s := natDegL a - natDegL b with hs
      set a' := addL a (shiftL s b) with ha'
      have heq : divModAux (m + 1) a b
          = (addL (divModAux m a' b).1 (xPow s), (divModAux m a' b).2) := by
        rw [divModAux, if_neg (by push_neg; exact ⟨hbne0, hba'⟩)]
      rw [heq]
      have hBlead : b.getD (natDegL b - 1) 0 = 1 := getLast_of_trimmed b hbne
      have hAne : trimR a ≠ [] := by
        intro hh
        have : natDegL a = 0 := by rw [natDegL, hh]; rfl
        omega
      have hAlead : a.getD (natDegL a - 1) 0 = 1 := getLast_of_trimmed a hAne
      have hstep : natDegL a' ≤ natDegL a - 1 := by
        apply natDegL_le_of_getD
        intro i hi
        rw [ha', getD_addL, getD_shiftL, if_neg (by omega : ¬ i < s)]
        by_cases hieq : i = natDegL a - 1
        · subst hieq
          rw [(by omega : natDegL a - 1 - s = natDegL b - 1), hAlead, hBlead]
          decide
        · rw [getD_eq_zero_of_natDegL_le a i (by omega),
            getD_eq_zero_of_natDegL_le b (i - s) (by omega)]
          decide
      obtain ⟨hq, hr⟩ := ih a' (by omega)
      have ha'p : toPolyL a' = toPolyL a + Polynomial.X ^ s * toPolyL b := by
        rw [ha', toPolyL_addL, toPolyL_shiftL]
      constructor
      · rw [toPolyL_addL, toPolyL_xPow, add_mul]
        calc toPolyL (divModAux m a' b).1 * toPolyL b + Polynomial.X ^ s * toPolyL b
              + toPolyL (divModAux m a' b).2
            = (toPolyL (divModAux m a' b).1 * toPolyL b + toPolyL (divModAux m a' b).2)
              + Polynomial.X ^ s * toPolyL b := by ring
          _ = toPolyL a' + Polynomial.X ^ s * toPolyL b := by rw [hq]
          _ = toPolyL a + (Polynomial.X ^ s * toPolyL b + Polynomial.X ^ s * toPolyL b) := by
              rw [ha'p]; ring
          _ = toPolyL a := by rw [add_self_poly, add_zero]
      · exact hr

theorem polyDivMod_spec (a b : List Bit) (hb : toPolyL b ≠ 0) :
    toPolyL (polyDivMod a b).1 * toPolyL b + toPolyL (polyDivMod a b).2 = toPolyL a
      ∧ (toPolyL (polyDivMod a b).2).degree < (toPolyL b).degree :=
  divModAux_spec a.length b hb a (length_trimR_le a)

theorem polyDivMod_snd (a b : List Bit) (hb : toPolyL b ≠ 0) :
    toPolyL (polyDivMod a b).2 = toPolyL a %ₘ toPolyL b := by
  obtain ⟨h1, h2⟩ := polyDivMod_spec a b hb
  exact ((Polynomial.div_modByMonic_unique (toPolyL (polyDivMod a b).1)
    (toPolyL (polyDivMod a b).2) (monic_of_ne_zero hb) ⟨by rw [← h1]; ring, h2⟩).2).symm

theorem polyDivMod_fst (a b : List Bit) (hb : toPolyL b ≠ 0) :
    toPolyL (polyDivMod a b).1 = toPolyL a /ₘ toPolyL b := by
  obtain ⟨h1, h2⟩ := polyDivMod_spec a b hb
  exact ((Polynomial.div_modByMonic_unique (toPolyL (polyDivMod a b).1)
    (toPolyL (polyDivMod a b).2) (monic_of_ne_zero hb) ⟨by rw [← h1]; ring, h2⟩).1).symm

/-! ## The sympy wrappers: `all_coeffs`, `poly_mul`, `poly_div`, `encode` -/

theorem trimR_eq_self (l : List Bit) (h : ∀ c, l.getLast? = some c → c ≠ 0) :
    trimR l = l := by
  induction l with
  | nil => rfl
  | cons x t ih =>
    cases t with
    | nil =>
      have hx : x ≠ 0 := h x (by simp)
      simp [trimR, hx]
    | cons y ts =>
      have ht : trimR (y :: ts) = y :: ts :=
        ih fun c hc => h c (by rw [List.getLast?_cons_cons]; exact hc)
      have h2 : trimR (x :: y :: ts) = x :: trimR (y :: ts) := by
        rw [trimR, ht]
      rw [h2, ht]

theorem trimR_idem (l : List Bit) : trimR (trimR l) = trimR l :=
  trimR_eq_self _ (getLast_trimR_ne_zero l)

theorem allCoeffs_of_ne_zero (l : List Bit) (h : toPolyL l ≠ 0) :
    allCoeffs l = (trimR l).reverse := by
  cases ht : trimR l with
  | nil => exact absurd ((trimR_eq_nil_iff l).mp ht) h
  | cons r rs => rw [allCoeffs, ht]

theorem toPolyHF_allCoeffs (l : List Bit) : toPolyHF (allCoeffs l) = toPolyL l := by
  cases ht : trimR l with
  | nil =>
    have h2 : allCoeffs l = [0] := by rw [allCoeffs, ht]
    have h0 : toPolyL l = 0 := (trimR_eq_nil_iff l).mp ht
    rw [toPolyHF, h2, h0]
    simp [toPolyL_cons, toPolyL_nil]
  | cons r rs =>
    have h2 : allCoeffs l = (trimR l).reverse := by rw [allCoeffs, ht]
    rw [toPolyHF, h2, List.reverse_reverse, toPolyL_trimR]

theorem trimR_reverse_of_head (m : List Bit) (hm : m.headD 0 ≠ 0) :
    trimR m.reverse = m.reverse := by
  apply trimR_eq_self
  intro c hc
  rw [List.getLast?_reverse] at hc
  cases m with
  | nil => simp at hc
  | cons x t =>
    simp only [List.head?_cons, Option.some_inj] at hc
    rw [← hc]
    simpa using hm

theorem toPolyHF_ne_zero_of_head (m : List Bit) (hm : m.headD 0 ≠ 0) :
    toPolyHF m ≠ 0 := by
  intro h0
  have hnil : trimR m.reverse = [] := (trimR_eq_nil_iff m.reverse).mpr h0
  rw [trimR_reverse_of_head m hm] at hnil
  have : m = [] := by simpa using hnil
  rw [this] at hm
  simp at hm

theorem allCoeffs_eq_of_toPolyL (q m : List Bit) (hm : m.headD 0 ≠ 0)
    (h : toPolyL q = toPolyL m.reverse) : allCoeffs q = m := by
  have hq0 : toPolyL q ≠ 0 := by
    rw [h]
    exact toPolyHF_ne_zero_of_head m hm
  rw [allCoeffs_of_ne_zero q hq0]
  have htq : trimR q = m.reverse := by
    apply eq_of_trimmed_toPolyL_eq _ _ (trimR_idem q) (trimR_reverse_of_head m hm)
    rw [toPolyL_trimR, h]
  rw [htq, List.reverse_reverse]

theorem toPolyHF_poly_mul (a b : List Bit) :
    toPolyHF (poly_mul a b) = toPolyHF a * toPolyHF b := by
  rw [poly_mul, toPolyHF_allCoeffs, toPolyL_mulL]
  rfl

theorem toPolyHF_encode (m g : List Bit) :
    toPolyHF (encode m g) = toPolyHF m * toPolyHF g :=
  toPolyHF_poly_mul m g

theorem toPolyHF_poly_div (a b : List Bit) (hb : toPolyHF b ≠ 0) :
    toPolyHF (poly_div a b) = toPolyHF a /ₘ toPolyHF b := by
  rw [poly_div, toPolyHF_allCoeffs, polyDivMod_fst a.reverse b.reverse hb]
  rfl

theorem mul_divByMonic_self (M G : Polynomial Bit) (hG : G ≠ 0) : M * G /ₘ G = M := by
  have hbot : (0 : Polynomial Bit).degree < G.degree := by
    rw [Polynomial.degree_zero]
    exact Ne.bot_lt (fun hh => hG (Polynomial.degree_eq_bot.mp hh))
  exact (Polynomial.div_modByMonic_unique M 0 (monic_of_ne_zero hG)
    ⟨by rw [zero_add, mul_comm], hbot⟩).1

theorem poly_div_encode (m g : List Bit) (hm : m.headD 0 ≠ 0) (hg : toPolyHF g ≠ 0) :
    poly_div (encode m g) g = m := by
  apply allCoeffs_eq_of_toPolyL _ _ hm
  have h1 : toPolyL (polyDivMod (encode m g).reverse g.reverse).1
      = toPolyHF (encode m g) /ₘ toPolyHF g :=
    polyDivMod_fst (encode m g).reverse g.reverse hg
  show toPolyL (polyDivMod (encode m g).reverse g.reverse).1 = toPolyL m.reverse
  rw [h1, toPolyHF_encode, mul_divByMonic_self _ _ hg]
  rfl

theorem encode_length (m g : List Bit) (hm : m.headD 0 = 1) (hg : g.headD 0 = 1) :
    (encode m g).length = m.length + g.length - 1 := by
  have hm0 : m.headD 0 ≠ 0 := by rw [hm]; decide
  have hg0 : g.headD 0 ≠ 0 := by rw [hg]; decide
  have hmne : m ≠ [] := by intro h; rw [h] at hm; exact absurd hm (by decide)
  have hgne : g ≠ [] := by intro h; rw [h] at hg; exact absurd hg (by decide)
  have hM : toPolyHF m ≠ 0 := toPolyHF_ne_zero_of_head m hm0
  have hG : toPolyHF g ≠ 0 := toPolyHF_ne_zero_of_head g hg0
  have hP : toPolyL (mulL m.reverse g.reverse) ≠ 0 := by
    rw [toPolyL_mulL]
    exact mul_ne_zero hM hG
  have hlen : (encode m g).length = natDegL (mulL m.reverse g.reverse) := by
    rw [encode, poly_mul, allCoeffs_of_ne_zero _ hP, List.length_reverse, natDegL]
  have hdegM : natDegL m.reverse = (toPolyHF m).natDegree + 1 := natDegL_eq_natDegree _ hM
  have hdegG : natDegL g.reverse = (toPolyHF g).natDegree + 1 := natDegL_eq_natDegree _ hG
  have hLm : natDegL m.reverse = m.length := by
    rw [natDegL, trimR_reverse_of_head m hm0, List.length_reverse]
  have hLg : natDegL g.reverse = g.length := by
    rw [natDegL, trimR_reverse_of_head g hg0, List.length_reverse]
  have hdegP : natDegL (mulL m.reverse g.reverse) = (toPolyHF m).natDegree
      + (toPolyHF g).natDegree + 1 := by
    rw [natDegL_eq_natDegree _ hP, toPolyL_mulL,
      show toPolyL m.reverse = toPolyHF m from rfl,
      show toPolyL g.reverse = toPolyHF g from rfl,
      Polynomial.natDegree_mul hM hG]
  omega

/-! ## Matrix entries, inner products and the syndrome table -/

theorem getD_range_map {α : Type} (f : Nat → α) (n i : Nat) (d : α) (h : i < n) :
    ((List.range n).map f).getD i d = f i := by
  rw [List.getD_eq_getElem _ _ (by simpa using h), List.getElem_map, List.getElem_range]

theorem getD_replicate_zero (t i : Nat) : (List.replicate t (0 : Bit)).getD i 0 = 0 := by
  induction t generalizing i with
  | zero => simp
  | succ m ih =>
    cases i with
    | zero => simp [List.replicate_succ]
    | succ ii => simpa [List.replicate_succ] using ih ii

theorem getD_reverse (v : List Bit) (i : Nat) (hi : i < v.length) :
    v.reverse.getD (v.length - 1 - i) 0 = v.getD i 0 := by
  have h1 : v.length - 1 - i < v.length := by omega
  rw [List.getD_eq_getD_get?, List.getD_eq_getD_get?, List.get?_eq_getElem?,
    List.get?_eq_getElem?, List.getElem?_reverse h1]
  congr 2
  omega

theorem getD_poly_div_to_k (j : Nat) (g : List Bit) (n i : Nat) :
    (poly_div_to_k j g n).getD i 0
      = (toPolyL (polyDivMod (xPow j) g.reverse).2).coeff i := by
  set r := (polyDivMod (xPow j) g.reverse).2 with hr
  have hsplit : poly_div_to_k j g n
      = (allCoeffs r).reverse ++ List.replicate (n - (allCoeffs r).length) 0 := by
    show (List.replicate (n - (allCoeffs r).length) 0 ++ allCoeffs r).reverse = _
    rw [List.reverse_append, List.reverse_replicate]
  by_cases h0 : toPolyL r = 0
  · have hAC : allCoeffs r = [0] := by
      rw [allCoeffs, (trimR_eq_nil_iff r).mpr h0]
    rw [hsplit, hAC, h0]
    cases i with
    | zero => simp
    | succ ii => simpa using getD_replicate_zero _ ii
  · have hAC : allCoeffs r = (trimR r).reverse := allCoeffs_of_ne_zero r h0
    rw [hsplit, hAC, List.reverse_reverse, ← toPolyL_trimR r, coeff_toPolyL]
    by_cases hi : i < (trimR r).length
    · rw [List.getD_append _ _ _ _ hi]
    · rw [List.getD_append_right _ _ _ _ (Nat.le_of_not_lt hi), getD_replicate_zero,
        List.getD_eq_default _ _ (Nat.le_of_not_lt hi)]

theorem getD_poly_div_to_k_mod (j : Nat) (g : List Bit) (n i : Nat) (hg : toPolyHF g ≠ 0) :
    (poly_div_to_k j g n).getD i 0
      = ((Polynomial.X ^ j : Polynomial Bit) %ₘ toPolyHF g).coeff i := by
  rw [getD_poly_div_to_k, polyDivMod_snd (xPow j) g.reverse hg, toPolyL_xPow]
  rfl

theorem Hmat_entry (n k : Nat) (g : List Bit) (i j : Nat) (hi : i < n - k) (hj : j < n) :
    ((Hmat n k g).getD i []).getD j 0 = (poly_div_to_k j g n).getD i 0 := by
  rw [Hmat, getD_range_map _ _ _ _ hi, getD_range_map _ _ _ _ hj]

theorem Gmat_entry (n k : Nat) (g : List Bit) (i j : Nat) (hi : i < k) (hj : j < n) :
    ((Gmat n k g).getD i []).getD j 0
      = if i ≤ j ∧ j < i + g.length then g.getD (j - i) 0 else 0 := by
  rw [Gmat, getD_range_map _ _ _ _ hi, getD_range_map _ _ _ _ hj]

theorem Hmat_length (n k : Nat) (g : List Bit) : (Hmat n k g).length = n - k := by
  simp [Hmat]

theorem Hmat_row_length (n k : Nat) (g : List Bit) :
    ∀ row ∈ Hmat n k g, row.length = n := by
  intro row hrow
  rw [Hmat, List.mem_map] at hrow
  obtain ⟨i, _, hrow⟩ := hrow
  rw [← hrow]
  simp

theorem Gmat_length (n k : Nat) (g : List Bit) : (Gmat n k g).length = k := by
  simp [Gmat]

theorem Gmat_row_length (n k : Nat) (g : List Bit) :
    ∀ row ∈ Gmat n k g, row.length = n := by
  intro row hrow
  rw [Gmat, List.mem_map] at hrow
  obtain ⟨i, _, hrow⟩ := hrow
  rw [← hrow]
  simp

theorem npFlip_entry (M : Mat) (C r j : Nat) (hC : ∀ row ∈ M, row.length = C)
    (hr : r < M.length) (hj : j < C) :
    ((npFlip M).getD r []).getD j 0
      = (M.getD (M.length - 1 - r) []).getD (C - 1 - j) 0 := by
  have hr2 : M.length - 1 - r < M.length := by omega
  have hrowlen : (M.getD (M.length - 1 - r) []).length = C :=
    hC _ (by rw [List.getD_eq_getElem _ _ hr2]; exact List.getElem_mem hr2)
  have hrow : (npFlip M).getD r [] = (M.getD (M.length - 1 - r) []).reverse := by
    rw [npFlip, List.getD_eq_getElem _ _ (by simpa using hr), List.getElem_reverse,
      List.getElem_map, List.getD_eq_getElem _ _ (by simpa using hr2)]
    congr 2 <;> simp
  rw [hrow, ← getD_reverse (List.getD M (M.length - 1 - r) []) (C - 1 - j) (by omega)]
  congr 1
  omega

theorem matVec_eq_of_rows (M : Mat) (v : List Bit) (h : ∀ row ∈ M, row.length = v.length) :
    matVec M v = some (M.map fun row => dotL row v) := by
  rw [matVec, if_pos]
  rw [List.all_eq_true]
  intro row hrow
  simpa using h row hrow

theorem dotL_eq_sum (a b : List Bit) (h : a.length = b.length) :
    dotL a b = ∑ j ∈ Finset.range a.length, a.getD j 0 * b.getD j 0 := by
  induction a generalizing b with
  | nil => simp [dotL]
  | cons x xs ih =>
    cases b with
    | nil => simp at h
    | cons y ys =>
      have htail := ih ys (by simpa using h)
      have h1 : dotL (x :: xs) (y :: ys) = x * y + dotL xs ys := by
        simp [dotL]
      rw [h1, htail, List.length_cons, Finset.sum_range_succ']
      simp [List.getD_cons_succ, List.getD_cons_zero, add_comm]

theorem unitVec_length (n i : Nat) : (unitVec n i).length = n := by simp [unitVec]

theorem dotL_unitVec (row : List Bit) (n i : Nat) (hlen : row.length = n) (hi : i < n) :
    dotL row (unitVec n i) = row.getD i 0 := by
  rw [dotL_eq_sum _ _ (by rw [hlen, unitVec_length]), hlen]
  rw [Finset.sum_eq_single_of_mem i (Finset.mem_range.mpr hi)]
  · rw [unitVec, getD_range_map _ _ _ _ hi]
    simp
  · intro j hj hne
    rw [unitVec, getD_range_map _ _ _ _ (Finset.mem_range.mp hj)]
    simp [hne]

theorem ges_foldl (H : Mat) (n : Nat) (l : List Nat) (d : List (List Bit × Nat))
    (hall : ∀ i ∈ l, matVec H (unitVec n i) = some (syndromeCol H n i)) :
    l.foldl
      (fun acc i =>
        match acc with
        | none => none
        | some dd =>
          match matVec H (unitVec n i) with
          | none => none
          | some s => some (dd ++ [(s, i)]))
      (some d)
      = some (d ++ l.map fun i => (syndromeCol H n i, i)) := by
  induction l generalizing d with
  | nil => simp
  | cons x xs ih =>
    rw [List.foldl_cons]
    have hx := hall x (List.mem_cons_self x xs)
    simp only [hx]
    rw [ih _ fun i hi => hall i (List.mem_cons_of_mem x hi)]
    simp

theorem ges_eq (H : Mat) (n : Nat) (h : ∀ row ∈ H, row.length = n) :
    generate_error_syndromes H n
      = some ((List.range n).map fun i => (syndromeCol H n i, i)) := by
  rw [generate_error_syndromes,
    ges_foldl H n (List.range n) [] fun i _ =>
      matVec_eq_of_rows H (unitVec n i) (by rw [unitVec_length]; exact h)]
  simp

theorem dictGet_range_map (f : Nat → List Bit) :
    ∀ n i : Nat, i < n → (∀ j, i < j → j < n → f j ≠ f i) →
      dictGet ((List.range n).map fun j => (f j, j)) (f i) = some i := by
  intro n
  induction n with
  | zero => intro i hi _; omega
  | succ m ih =>
    intro i hi hlater
    rw [dictGet, List.range_succ, List.map_append, List.reverse_append]
    simp only [List.map_cons, List.map_nil, List.reverse_cons, List.reverse_nil,
      List.nil_append, List.cons_append, List.find?_cons]
    by_cases hmi : m = i
    · subst hmi
      simp
    · have hne : f m ≠ f i := hlater m (by omega) (by omega)
      have hbeq : (((f m, m) : List Bit × Nat).1 == f i) = false := by
        simpa using hne
      rw [hbeq]
      exact ih i (by omega) fun j h1 h2 => hlater j h1 (by omega)

/-! ## Sums of remainders -/

theorem modByMonic_sum (s : Finset ℕ) (f : ℕ → Polynomial Bit) (q : Polynomial Bit) :
    (∑ j ∈ s, f j) %ₘ q = ∑ j ∈ s, f j %ₘ q := by
  induction s using Finset.induction_on with
  | empty => simp [Polynomial.zero_modByMonic]
  | insert hj ih =>
    rw [Finset.sum_insert hj, Finset.sum_insert hj, Polynomial.add_modByMonic, ih]

theorem toPolyL_eq_sum (l : List Bit) :
    toPolyL l = ∑ i ∈ Finset.range l.length,
      Polynomial.C (l.getD i 0) * Polynomial.X ^ i := by
  induction l with
  | nil => simp [toPolyL]
  | cons c t ih =>
    have h1 : (Polynomial.X : Polynomial Bit) * ∑ i ∈ Finset.range t.length,
        Polynomial.C (t.getD i 0) * Polynomial.X ^ i
        = ∑ i ∈ Finset.range t.length,
          Polynomial.C ((c :: t).getD (i + 1) 0) * Polynomial.X ^ (i + 1) := by
      rw [Finset.mul_sum]
      refine Finset.sum_congr rfl fun i _ => ?_
      rw [List.getD_cons_succ]
      ring
    rw [toPolyL_cons, ih, List.length_cons, Finset.sum_range_succ', h1, List.getD_cons_zero]
    simp [add_comm]

theorem toPolyHF_eq_sum (v : List Bit) :
    toPolyHF v = ∑ j ∈ Finset.range v.length,
      Polynomial.C (v.getD j 0) * Polynomial.X ^ (v.length - 1 - j) := by
  rw [toPolyHF, toPolyL_eq_sum, List.length_reverse, ← Finset.sum_range_reflect]
  refine Finset.sum_congr rfl fun j hj => ?_
  rw [getD_reverse v j (Finset.mem_range.mp hj)]

theorem sum_remainder_coeff_gen (q : Polynomial Bit) (v : List Bit) (e : Nat → Nat) (i : Nat) :
    ∑ j ∈ Finset.range v.length,
        ((Polynomial.X ^ e j : Polynomial Bit) %ₘ q).coeff i * v.getD j 0
      = ((∑ j ∈ Finset.range v.length,
          Polynomial.C (v.getD j 0) * Polynomial.X ^ e j) %ₘ q).coeff i := by
  rw [modByMonic_sum, Polynomial.finset_sum_coeff]
  refine Finset.sum_congr rfl fun j hj => ?_
  rw [← Polynomial.smul_eq_C_mul, Polynomial.smul_modByMonic, Polynomial.coeff_smul,
    smul_eq_mul, mul_comm]

/-- Key syndrome identity: an inner product of a vector `v` against the
per-column remainder coefficients equals a coefficient of the remainder of
the polynomial with highest-first coefficient vector `v`. -/
theorem sum_remainder_coeff (g : List Bit) (hg : toPolyHF g ≠ 0) (v : List Bit) (i : Nat) :
    ∑ j ∈ Finset.range v.length,
        ((Polynomial.X ^ (v.length - 1 - j) : Polynomial Bit) %ₘ toPolyHF g).coeff i * v.getD j 0
      = (toPolyHF v %ₘ toPolyHF g).coeff i := by
  rw [toPolyHF_eq_sum v, modByMonic_sum, Polynomial.finset_sum_coeff]
  refine Finset.sum_congr rfl fun j hj => ?_
  rw [← Polynomial.smul_eq_C_mul, Polynomial.smul_modByMonic, Polynomial.coeff_smul]
  rw [smul_eq_mul, mul_comm]

/-! ## The flipped parity-check matrix computes remainder coefficients -/

theorem getD_mem (M : Mat) (r : Nat) (hr : r < M.length) : M.getD r [] ∈ M := by
  rw [List.getD_eq_getElem _ _ hr]
  exact List.getElem_mem hr

theorem npFlip_length (M : Mat) : (npFlip M).length = M.length := by simp [npFlip]

theorem npFlip_row_length (M : Mat) (C : Nat) (hC : ∀ row ∈ M, row.length = C) :
    ∀ row ∈ npFlip M, row.length = C := by
  intro row hrow
  rw [npFlip, List.mem_reverse, List.mem_map] at hrow
  obtain ⟨row0, h0, heq⟩ := hrow
  rw [← heq, List.length_reverse]
  exact hC row0 h0

theorem map_eq_range_map {α β : Type} (d : α) (f : α → β) (l : List α) :
    l.map f = (List.range l.length).map fun i => f (l.getD i d) := by
  apply List.ext_getElem (by simp)
  intro i h1 h2
  rw [List.getElem_map, List.getElem_map, List.getElem_range,
    List.getD_eq_getElem _ _ (by simpa using h1)]

theorem npFlip_Hmat_entry (n k : Nat) (g : List Bit) (hg : toPolyHF g ≠ 0)
    (r j : Nat) (hr : r < n - k) (hj : j < n) :
    ((npFlip (Hmat n k g)).getD r []).getD j 0
      = ((Polynomial.X ^ (n - 1 - j) : Polynomial Bit) %ₘ toPolyHF g).coeff (n - k - 1 - r) := by
  rw [npFlip_entry (Hmat n k g) n r j (Hmat_row_length n k g)
    (by rw [Hmat_length]; exact hr) hj, Hmat_length,
    Hmat_entry n k g _ _ (by omega) (by omega),
    getD_poly_div_to_k_mod _ _ _ _ hg]

theorem dotL_npFlip_Hmat (n k : Nat) (g : List Bit) (hg : toPolyHF g ≠ 0)
    (v : List Bit) (hv : v.length = n) (r : Nat) (hr : r < n - k) :
    dotL ((npFlip (Hmat n k g)).getD r []) v
      = (toPolyHF v %ₘ toPolyHF g).coeff (n - k - 1 - r) := by
  have hrowlen : ((npFlip (Hmat n k g)).getD r []).length = n :=
    npFlip_row_length _ n (Hmat_row_length n k g) _
      (getD_mem _ _ (by rw [npFlip_length, Hmat_length]; exact hr))
  rw [dotL_eq_sum _ _ (by rw [hrowlen, hv]), hrowlen, ← sum_remainder_coeff g hg v _, hv]
  refine Finset.sum_congr rfl fun j hj => ?_
  rw [npFlip_Hmat_entry n k g hg r j hr (Finset.mem_range.mp hj)]

theorem matVec_npFlip_Hmat (n k : Nat) (g : List Bit) (hg : toPolyHF g ≠ 0)
    (v : List Bit) (hv : v.length = n) :
    matVec (npFlip (Hmat n k g)) v
      = some ((List.range (n - k)).map fun r =>
          (toPolyHF v %ₘ toPolyHF g).coeff (n - k - 1 - r)) := by
  rw [matVec_eq_of_rows _ _ fun row hrow => by
    rw [hv]; exact npFlip_row_length _ _ (Hmat_row_length n k g) row hrow]
  congr 1
  rw [map_eq_range_map ([] : List Bit) _ _]
  have hlen : (npFlip (Hmat n k g)).length = n - k := by
    rw [npFlip_length, Hmat_length]
  rw [hlen]
  refine List.map_congr_left ?_
  intro r hr
  rw [dotL_npFlip_Hmat n k g hg v hv r (by simpa using hr)]

theorem toPolyHF_unitVec (n i : Nat) (hi : i < n) :
    toPolyHF (unitVec n i) = Polynomial.X ^ (n - 1 - i) := by
  rw [toPolyHF_eq_sum, unitVec_length]
  have hterm : ∀ j ∈ Finset.range n,
      Polynomial.C ((unitVec n i).getD j 0) * Polynomial.X ^ (n - 1 - j)
        = if j = i then (Polynomial.X ^ (n - 1 - i) : Polynomial Bit) else 0 := by
    intro j hj
    rw [unitVec, getD_range_map _ _ _ _ (Finset.mem_range.mp hj)]
    by_cases hji : j = i
    · subst hji
      simp
    · simp [hji]
  rw [Finset.sum_congr rfl hterm, Finset.sum_ite_eq' (Finset.range n) i,
    if_pos (Finset.mem_range.mpr hi)]

theorem syndromeCol_npFlip_Hmat (n k : Nat) (g : List Bit) (hg : toPolyHF g ≠ 0)
    (i : Nat) (hi : i < n) :
    syndromeCol (npFlip (Hmat n k g)) n i
      = (List.range (n - k)).map fun r =>
          ((Polynomial.X ^ (n - 1 - i) : Polynomial Bit) %ₘ toPolyHF g).coeff (n - k - 1 - r) := by
  have h1 := matVec_npFlip_Hmat n k g hg (unitVec n i) (unitVec_length n i)
  rw [matVec_eq_of_rows _ _ fun row hrow => by
    rw [unitVec_length]
    exact npFlip_row_length _ _ (Hmat_row_length n k g) row hrow] at h1
  have h2 := Option.some_inj.mp h1
  rw [syndromeCol, h2, toPolyHF_unitVec n i hi]

theorem toPolyHF_set_flip (c : List Bit) (i : Nat) (hi : i < c.length) :
    toPolyHF (flipBit c i)
      = toPolyHF c + Polynomial.X ^ (c.length - 1 - i) := by
  rw [flipBit, toPolyHF_eq_sum, toPolyHF_eq_sum, List.length_set]
  have hsplit : ∀ j ∈ Finset.range c.length,
      Polynomial.C ((c.set i (c.getD i 0 + 1)).getD j 0) * Polynomial.X ^ (c.length - 1 - j)
        = Polynomial.C (c.getD j 0) * Polynomial.X ^ (c.length - 1 - j)
          + (if j = i then (Polynomial.X ^ (c.length - 1 - i) : Polynomial Bit) else 0) := by
    intro j hj
    by_cases hji : j = i
    · subst hji
      have hval : (c.set j (c.getD j 0 + 1)).getD j 0 = c.getD j 0 + 1 := by
        rw [List.getD_eq_getElem _ _ (by simpa using Finset.mem_range.mp hj),
          List.getElem_set]
        simp [List.getD_eq_getElem _ _ (Finset.mem_range.mp hj)]
      rw [if_pos rfl, hval, map_add, add_mul, map_one, one_mul]
    · have hval : (c.set i (c.getD i 0 + 1)).getD j 0 = c.getD j 0 := by
        by_cases hjlen : j < c.length
        · rw [List.getD_eq_getElem _ _ (by simpa using hjlen), List.getElem_set,
            if_neg fun hh => hji hh.symm, List.getD_eq_getElem _ _ hjlen]
        · rw [List.getD_eq_default _ _ (by simpa using Nat.le_of_not_lt hjlen),
            List.getD_eq_default _ _ (Nat.le_of_not_lt hjlen)]
      rw [if_neg hji, add_zero, hval]
  rw [Finset.sum_congr rfl hsplit, Finset.sum_add_distrib,
    Finset.sum_ite_eq' (Finset.range c.length) i, if_pos (Finset.mem_range.mpr hi)]

/-! ## Branch reductions for `decode` -/

theorem decode_eq_noErrors (received : List Bit) (H : Mat) (g : List Bit) (synd : List Bit)
    (h1 : matVec (npFlip H) received = some synd)
    (h2 : synd.any (· != 0) = false) :
    decode received H g = some (poly_div received g, [ConsoleLine.noErrors]) := by
  rw [decode, h1]
  simp only [h2, Bool.false_eq_true, if_false]

theorem decode_eq_corrected (received : List Bit) (H : Mat) (g : List Bit)
    (synd : List Bit) (table : List (List Bit × Nat)) (idx : Nat)
    (h1 : matVec (npFlip H) received = some synd)
    (h2 : synd.any (· != 0) = true)
    (h3 : generate_error_syndromes (npFlip H) received.length = some table)
    (h4 : dictGet table synd = some idx) :
    decode received H g
      = some (poly_div (flipBit received idx) g,
        [ConsoleLine.correctedWord (flipBit received idx),
         ConsoleLine.correctedAt idx]) := by
  rw [decode, h1]
  simp only [h2, if_true, h3, h4]

theorem decode_eq_failed (received : List Bit) (H : Mat) (g : List Bit)
    (synd : List Bit) (table : List (List Bit × Nat))
    (h1 : matVec (npFlip H) received = some synd)
    (h2 : synd.any (· != 0) = true)
    (h3 : generate_error_syndromes (npFlip H) received.length = some table)
    (h4 : dictGet table synd = none) :
    decode received H g = some (poly_div received g, [ConsoleLine.failedToCorrect]) := by
  rw [decode, h1]
  simp only [h2, if_true, h3, h4]

/-! ## Demo-configuration facts -/

theorem gDemo_head : gDemo.headD 0 ≠ 0 := by decide

theorem gDemo_ne_zero : toPolyHF gDemo ≠ 0 := toPolyHF_ne_zero_of_head gDemo gDemo_head

theorem demo_syndromeCol_nonzero : ∀ i : Fin 15,
    (syndromeCol (npFlip (Hmat 15 7 gDemo)) 15 i.val).any (· != 0) = true := by decide

theorem demo_dictGet_syndromeCol : ∀ i : Fin 15,
    dictGet ((List.range 15).map fun j => (syndromeCol (npFlip (Hmat 15 7 gDemo)) 15 j, j))
      (syndromeCol (npFlip (Hmat 15 7 gDemo)) 15 i.val) = some i.val := by decide

theorem set_getD_self (l : List Bit) (i : Nat) (hi : i < l.length) :
    l.set i (l.getD i 0) = l := by
  apply List.ext_getElem (by simp)
  intro j h1 h2
  rw [List.getElem_set]
  by_cases hij : i = j
  · subst hij
    rw [if_pos rfl, List.getD_eq_getElem _ _ hi]
  · rw [if_neg hij]

theorem flipBit_flipBit (c : List Bit) (i : Nat) (hi : i < c.length) :
    flipBit (flipBit c i) i = c := by
  have hget : (flipBit c i).getD i 0 = c.getD i 0 + 1 := by
    rw [flipBit, List.getD_eq_getElem _ _ (by simpa using hi), List.getElem_set, if_pos rfl]
  rw [flipBit, hget, flipBit, List.set_set,
    (by exact (by decide : ∀ x : Bit, x + 1 + 1 = x) _ : c.getD i 0 + 1 + 1 = c.getD i 0),
    set_getD_self c i hi]

theorem encode_demo_length (m : List Bit) (hlen : m.length = 7) (hhead : m.headD 0 = 1) :
    (encode m gDemo).length = 15 := by
  rw [encode_length m gDemo hhead (by decide), hlen]
  decide

theorem encode_demo_mod (m : List Bit) :
    toPolyHF (encode m gDemo) %ₘ toPolyHF gDemo = 0 :=
  (Polynomial.modByMonic_eq_zero_iff_dvd (monic_of_ne_zero gDemo_ne_zero)).mpr
    ⟨toPolyHF m, by rw [toPolyHF_encode]; ring⟩

/-! ## Claim theorems -/

/-- C1 (amended): for every message of length `k = 7` whose leading
coefficient is `1`, decoding the error-free encoding with the demo
configuration returns the original message and reports (by console output)
that no error was detected.  Messages with leading coefficient `0` encode
to fewer than `n` coefficients and `decode` fails on the shape mismatch
(see the counterexample). -/
theorem c1_roundtrip_noErrors (m : List Bit) (hlen : m.length = 7) (hhead : m.headD 0 = 1) :
    decode (encode m gDemo) (Hmat 15 7 gDemo) gDemo = some (m, [ConsoleLine.noErrors]) := by
  have hh0 : m.headD 0 ≠ 0 := by rw [hhead]; decide
  have hclen := encode_demo_length m hlen hhead
  have hsynd := matVec_npFlip_Hmat 15 7 gDemo gDemo_ne_zero (encode m gDemo) hclen
  rw [encode_demo_mod m] at hsynd
  simp only [Polynomial.coeff_zero] at hsynd
  rw [decode_eq_noErrors (encode m gDemo) (Hmat 15 7 gDemo) gDemo _ hsynd (by decide),
    poly_div_encode m gDemo hh0 gDemo_ne_zero]

/-- Witness for C1 at the demo message. -/
theorem c1_roundtrip_noErrors_witness :
    decode (encode demoMessage gDemo) (Hmat 15 7 gDemo) gDemo
      = some (demoMessage, [ConsoleLine.noErrors]) :=
  c1_roundtrip_noErrors demoMessage (by decide) (by decide)

/-- C1 counterexample: the valid-length message `[0,0,0,0,0,0,1]` (leading
coefficient `0`) encodes to 9 coefficients, and decoding its error-free
encoding raises a shape mismatch (`none`) instead of returning the message
with no error detected. -/
theorem c1_roundtrip_counterexample :
    ([0, 0, 0, 0, 0, 0, 1] : List Bit).length = 7
      ∧ decode (encode [0, 0, 0, 0, 0, 0, 1] gDemo) (Hmat 15 7 gDemo) gDemo = none := by
  constructor
  · decide
  · decide

/-- C2 (amended): for every message of length `7` with leading coefficient
`1` and every index `i < 15`, flipping bit `i` of the encoded word and
decoding prints the corrected codeword and `Corrected`-at-index-`i`, and
returns the original message.  (Messages with leading coefficient `0`
fail as in C1; see the counterexample.) -/
theorem c2_single_error_corrected (m : List Bit) (i : Nat) (hlen : m.length = 7)
    (hhead : m.headD 0 = 1) (hi : i < 15) :
    decode (flipBit (encode m gDemo) i) (Hmat 15 7 gDemo) gDemo
      = some (m, [ConsoleLine.correctedWord (encode m gDemo), ConsoleLine.correctedAt i]) := by
  have hh0 : m.headD 0 ≠ 0 := by rw [hhead]; decide
  have hclen := encode_demo_length m hlen hhead
  have helen : (flipBit (encode m gDemo) i).length = 15 := by
    rw [flipBit, List.length_set, hclen]
  have hHFe : toPolyHF (flipBit (encode m gDemo) i) %ₘ toPolyHF gDemo
      = (Polynomial.X : Polynomial Bit) ^ (15 - 1 - i) %ₘ toPolyHF gDemo := by
    rw [toPolyHF_set_flip (encode m gDemo) i (by omega), Polynomial.add_modByMonic,
      encode_demo_mod m, zero_add, hclen]
  have hsynd := matVec_npFlip_Hmat 15 7 gDemo gDemo_ne_zero (flipBit (encode m gDemo) i) helen
  rw [hHFe, ← syndromeCol_npFlip_Hmat 15 7 gDemo gDemo_ne_zero i hi] at hsynd
  have htab : generate_error_syndromes (npFlip (Hmat 15 7 gDemo))
      (flipBit (encode m gDemo) i).length
      = some ((List.range 15).map fun j =>
          (syndromeCol (npFlip (Hmat 15 7 gDemo)) 15 j, j)) := by
    rw [helen]
    exact ges_eq _ 15 (npFlip_row_length _ 15 (Hmat_row_length 15 7 gDemo))
  rw [decode_eq_corrected (flipBit (encode m gDemo) i) (Hmat 15 7 gDemo) gDemo _ _ i hsynd
    (demo_syndromeCol_nonzero ⟨i, hi⟩) htab (demo_dictGet_syndromeCol ⟨i, hi⟩),
    flipBit_flipBit (encode m gDemo) i (by omega),
    poly_div_encode m gDemo hh0 gDemo_ne_zero]

/-- Witness for C2 at the demo message and error index 9, the spec's
concrete scenario. -/
theorem c2_single_error_corrected_witness :
    decode (flipBit (encode demoMessage gDemo) 9) (Hmat 15 7 gDemo) gDemo
      = some (demoMessage,
          [ConsoleLine.correctedWord (encode demoMessage gDemo),
           ConsoleLine.correctedAt 9]) :=
  c2_single_error_corrected demoMessage 9 (by decide) (by decide) (by decide)

/-- C2 counterexample: for the valid-length message `[0,1,0,1,0,1,1]`
(leading coefficient `0`) and error index 3, decoding the corrupted
encoding raises a shape mismatch (`none`) instead of correcting. -/
theorem c2_single_error_counterexample :
    ([0, 1, 0, 1, 0, 1, 1] : List Bit).length = 7 ∧ 3 < 15
      ∧ decode (flipBit (encode [0, 1, 0, 1, 0, 1, 1] gDemo) 3) (Hmat 15 7 gDemo) gDemo
          = none := by
  refine ⟨by decide, by decide, by decide⟩

theorem trimR_eq_self_of_length (l : List Bit) (h : (trimR l).length = l.length) :
    trimR l = l := by
  apply List.ext_getElem h
  intro j h1 h2
  rw [← List.getD_eq_getElem _ 0 h1, ← List.getD_eq_getElem _ 0 h2, getD_trimR]

/-- C3 (amended): for any valid `(n, k, g)` — the construction succeeds and
`degree(g) = n − k` — the parity-check matrix **as used by `decode`**, namely
`np.flip(H)`, is orthogonal to `G`: every entry of `np.flip(H) · Gᵗ (mod 2)`
is zero.  The raw `H` returned by `generate_matrices` is *not* orthogonal to
`G` (see the counterexample). -/
theorem c3_flipped_orthogonality (n k : Nat) (g : List Bit) (G H : Mat)
    (hGH : generate_matrices n k g = some (G, H))
    (hdeg : polyDegree g = (n : Int) - (k : Int))
    (r i : Nat) (hr : r < n - k) (hi : i < k) :
    dotL ((npFlip H).getD r []) (G.getD i []) = 0 := by
  rw [generate_matrices] at hGH
  split at hGH
  case isTrue hguard => exact absurd hGH (by simp)
  case isFalse hguard =>
  have hpair := Option.some_inj.mp hGH
  have hGeq : Gmat n k g = G := congrArg Prod.fst hpair
  have hHeq : Hmat n k g = H := congrArg Prod.snd hpair
  subst hGeq hHeq
  push_neg at hguard
  obtain ⟨hfit, hkn, hnz⟩ := hguard
  have hfit2 : k - 1 + g.length ≤ n := hfit (by omega)
  have hkn2 : k ≤ n := hkn
  have htglen : (trimR g.reverse).length = n - k + 1 := by
    rw [polyDegree] at hdeg
    omega
  have hglen : g.length = n - k + 1 := by
    have h1 := length_trimR_le g.reverse
    rw [htglen, List.length_reverse] at h1
    omega
  have htg : trimR g.reverse = g.reverse := by
    apply trimR_eq_self_of_length
    rw [htglen, List.length_reverse, hglen]
  have hgne : toPolyHF g ≠ 0 := by
    intro hh
    have := (trimR_eq_nil_iff g.reverse).mpr hh
    rw [htg] at this
    have : g.reverse.length = 0 := by rw [this]; rfl
    rw [List.length_reverse] at this
    omega
  have hiL : i + g.length ≤ n := by omega
  -- dimensions of the two rows
  have hrowH : ((npFlip (Hmat n k g)).getD r []).length = n :=
    npFlip_row_length _ n (Hmat_row_length n k g) _
      (getD_mem _ _ (by rw [npFlip_length, Hmat_length]; exact hr))
  have hrowG : ((Gmat n k g).getD i []).length = n := by
    rw [Gmat, getD_range_map _ _ _ _ hi]
    simp
  rw [dotL_eq_sum _ _ (by rw [hrowH, hrowG]), hrowH]
  -- entries
  have hterm : ∀ j ∈ Finset.range n,
      ((npFlip (Hmat n k g)).getD r []).getD j 0 * ((Gmat n k g).getD i []).getD j 0
        = if i ≤ j ∧ j < i + g.length then
            ((Polynomial.X ^ (n - 1 - j) : Polynomial Bit) %ₘ toPolyHF g).coeff (n - k - 1 - r)
              * g.getD (j - i) 0
          else 0 := by
    intro j hj
    rw [npFlip_Hmat_entry n k g hgne r j hr (Finset.mem_range.mp hj),
      Gmat_entry n k g i j hi (Finset.mem_range.mp hj)]
    by_cases hcase : i ≤ j ∧ j < i + g.length
    · rw [if_pos hcase, if_pos hcase]
    · rw [if_neg hcase, if_neg hcase, mul_zero]
  rw [Finset.sum_congr rfl hterm]
  -- restrict the sum to the window [i, i + len g)
  have hsub : Finset.Ico i (i + g.length) ⊆ Finset.range n := fun x hx =>
    Finset.mem_range.mpr (lt_of_lt_of_le (Finset.mem_Ico.mp hx).2 hiL)
  have hvan : ∀ j ∈ Finset.range n, j ∉ Finset.Ico i (i + g.length) →
      (if i ≤ j ∧ j < i + g.length then
        ((Polynomial.X ^ (n - 1 - j) : Polynomial Bit) %ₘ toPolyHF g).coeff (n - k - 1 - r)
          * g.getD (j - i) 0 else 0) = 0 := by
    intro j hj hnot
    rw [if_neg]
    intro hcase
    exact hnot (Finset.mem_Ico.mpr hcase)
  rw [← Finset.sum_subset hsub hvan]
  rw [Finset.sum_congr rfl fun j hj => if_pos (Finset.mem_Ico.mp hj)]
  rw [Finset.sum_Ico_eq_sum_range]
  simp only [Nat.add_sub_cancel_left]
  -- now a sum over t < g.length of coeff((X^(n-1-(i+t)) %ₘ g)) * g_t
  rw [sum_remainder_coeff_gen (toPolyHF g) g (fun t => n - 1 - (i + t)) (n - k - 1 - r)]
  -- the combined polynomial is X^(n - (i + len g)) * g, a multiple of g
  have hpoly : (∑ t ∈ Finset.range g.length,
      Polynomial.C (g.getD t 0) * Polynomial.X ^ (n - 1 - (i + t)))
      = Polynomial.X ^ (n - (i + g.length)) * toPolyHF g := by
    rw [toPolyHF_eq_sum, Finset.mul_sum]
    refine Finset.sum_congr rfl fun t ht => ?_
    have ht2 := Finset.mem_range.mp ht
    rw [mul_left_comm, ← pow_add]
    congr 2
    omega
  rw [hpoly, (Polynomial.modByMonic_eq_zero_iff_dvd (monic_of_ne_zero hgne)).mpr
    (dvd_mul_left (toPolyHF g) (Polynomial.X ^ (n - (i + g.length)))),
    Polynomial.coeff_zero]

/-- Witness for C3 at the demo configuration, entry (0, 0). -/
theorem c3_flipped_orthogonality_witness :
    generate_matrices 15 7 gDemo = some (Gmat 15 7 gDemo, Hmat 15 7 gDemo)
      ∧ polyDegree gDemo = (15 : Int) - 7
      ∧ dotL ((npFlip (Hmat 15 7 gDemo)).getD 0 []) ((Gmat 15 7 gDemo).getD 0 []) = 0 :=
  ⟨rfl, by decide,
    c3_flipped_orthogonality 15 7 gDemo _ _ rfl (by decide) 0 0 (by decide) (by decide)⟩

/-- C3 counterexample: at the valid demo configuration, entry (1, 0) of
`H · Gᵗ (mod 2)` — with `H` exactly as returned by `generate_matrices` —
is 1, not 0. -/
theorem c3_orthogonality_counterexample :
    generate_matrices 15 7 gDemo = some (Gmat 15 7 gDemo, Hmat 15 7 gDemo)
      ∧ polyDegree gDemo = (15 : Int) - 7
      ∧ dotL ((Hmat 15 7 gDemo).getD 1 []) ((Gmat 15 7 gDemo).getD 0 []) = 1 :=
  ⟨rfl, by decide, by decide⟩

/-- C4 (amended): `poly_mul` returns exactly `degree + 1` coefficients (the
sympy `Poly` representation strips leading zeros), so `encode(m, g)` has
length `len(m) + len(g) − 1` — that is, `n` — exactly when both leading
coefficients are `1`; a message with leading coefficient `0` yields a
shorter vector (see the counterexample). -/
theorem c4_encode_length (m g : List Bit) (hm : m.headD 0 = 1) (hg : g.headD 0 = 1) :
    (encode m g).length = m.length + g.length - 1 :=
  encode_length m g hm hg

/-- Witness for C4 at the demo message and generator. -/
theorem c4_encode_length_witness :
    demoMessage.headD 0 = 1 ∧ gDemo.headD 0 = 1
      ∧ (encode demoMessage gDemo).length = demoMessage.length + gDemo.length - 1 :=
  ⟨by decide, by decide, c4_encode_length demoMessage gDemo (by decide) (by decide)⟩

/-- C4 counterexample: the length-7 message `[0,0,0,0,0,0,1]` (leading
coefficient 0) encodes to 9 coefficients, not `n = 15`. -/
theorem c4_encode_length_counterexample :
    ([0, 0, 0, 0, 0, 0, 1] : List Bit).length = 7
      ∧ (encode [0, 0, 0, 0, 0, 0, 1] gDemo).length = 9
      ∧ (encode [0, 0, 0, 0, 0, 0, 1] gDemo).length ≠ 15 :=
  ⟨by decide, by decide, by decide⟩

/-- C5 (amended): `generate_matrices` performs no degree validation at all:
whenever every row slice can hold `g` (`k − 1 + len(g) ≤ n`, or `k = 0`),
`k ≤ n`, and `g` is not the zero polynomial (or `n = 0`), the construction
succeeds and returns `G` and `H` — even when `degree(g) ≠ n − k`.  It only
raises for geometric reasons (numpy broadcast / `np.zeros` dimensions /
division by the zero polynomial), never with an `InvalidGeneratorDegree`
error. -/
theorem c5_no_degree_check (n k : Nat) (g : List Bit)
    (_hdeg : polyDegree g ≠ (n : Int) - (k : Int))
    (hfit : k = 0 ∨ k - 1 + g.length ≤ n) (hkn : k ≤ n)
    (hnz : n = 0 ∨ (g.all (· == 0)) = false) :
    (generate_matrices n k g).isSome = true := by
  rw [generate_matrices, if_neg]
  · rfl
  push_neg
  refine ⟨?_, by omega, ?_⟩
  · intro _
    rcases hfit with h | h
    · omega
    · omega
  · intro hn
    rcases hnz with h | h
    · omega
    · simp [h]

/-- Witness for C5: a degree-1 generator in the (15, 7) configuration is
accepted by the construction. -/
theorem c5_no_degree_check_witness :
    polyDegree [1, 1] ≠ (15 : Int) - 7
      ∧ (generate_matrices 15 7 ([1, 1] : List Bit)).isSome = true :=
  ⟨by decide, c5_no_degree_check 15 7 [1, 1] (by decide) (Or.inr (by decide))
    (by decide) (Or.inr (by decide))⟩

/-- C5 counterexample: with `g = [1,1]` (degree 1 ≠ 15 − 7 = 8) the
construction does not fail — it returns `G` and `H`. -/
theorem c5_degree_check_counterexample :
    polyDegree [1, 1] ≠ (15 : Int) - 7
      ∧ generate_matrices 15 7 ([1, 1] : List Bit)
          = some (Gmat 15 7 [1, 1], Hmat 15 7 [1, 1]) :=
  ⟨by decide, rfl⟩

theorem allCoeffs_length_pos (l : List Bit) : 1 ≤ (allCoeffs l).length := by
  cases ht : trimR l with
  | nil =>
    have h2 : allCoeffs l = [0] := by rw [allCoeffs, ht]
    rw [h2]
    decide
  | cons r rs =>
    have h2 : allCoeffs l = (trimR l).reverse := by rw [allCoeffs, ht]
    rw [h2, List.length_reverse, ht]
    simp

/-- C6 (amended): `encode` itself performs no length validation — it returns
`poly_mul(data, g)` (a nonempty coefficient list) for a message of any
length.  The `len(message) == k` check lives in the demo driver `main`,
which aborts before encoding when the length is wrong. -/
theorem c6_length_check_in_main (m : List Bit) (h : m.length ≠ 7) :
    main_with m = none ∧ 1 ≤ (encode m gDemo).length := by
  constructor
  · have hgm : generate_matrices 15 7 gDemo = some (Gmat 15 7 gDemo, Hmat 15 7 gDemo) := rfl
    rw [main_with]
    simp only [hgm]
    rw [if_pos h]
  · exact allCoeffs_length_pos _

/-- Witness for C6 at the length-1 message `[1]`. -/
theorem c6_length_check_in_main_witness :
    ([1] : List Bit).length ≠ 7 ∧ main_with [1] = none ∧ 1 ≤ (encode [1] gDemo).length :=
  ⟨by decide, c6_length_check_in_main [1] (by decide)⟩

/-- C6 counterexample: `encode` happily returns a codeword for the
wrong-length message `[1]` — no `InvalidMessageLength` failure occurs in
the encode operation itself. -/
theorem c6_encode_no_check_counterexample :
    ([1] : List Bit).length ≠ 7 ∧ encode [1] gDemo = gDemo :=
  ⟨by decide, by decide⟩

/-- C7 (amended): `generate_error_syndromes` performs no collision
detection: for any `H` with rows of length `n` it always succeeds, and when
several positions share a syndrome the **last** position silently wins
(Python dict assignment overwrites), so a lookup returns position `i`
exactly when no later position has the same syndrome. -/
theorem c7_table_last_wins (H : Mat) (n : Nat) (h : ∀ row ∈ H, row.length = n) :
    ∃ t, generate_error_syndromes H n = some t
      ∧ ∀ i, i < n → (∀ j, i < j → j < n → syndromeCol H n j ≠ syndromeCol H n i) →
          dictGet t (syndromeCol H n i) = some i := by
  refine ⟨_, ges_eq H n h, ?_⟩
  intro i hi hlater
  exact dictGet_range_map (syndromeCol H n) n i hi hlater

/-- Witness for C7 on the colliding matrix `[[1, 1]]`. -/
theorem c7_table_last_wins_witness :
    (∀ row ∈ ([[1, 1]] : Mat), row.length = 2)
      ∧ ∃ t, generate_error_syndromes ([[1, 1]] : Mat) 2 = some t
        ∧ dictGet t (syndromeCol [[1, 1]] 2 1) = some 1 := by
  refine ⟨by decide, ?_⟩
  obtain ⟨t, h1, h2⟩ := c7_table_last_wins [[1, 1]] 2 (by decide)
  exact ⟨t, h1, h2 1 (by decide) fun j hj1 hj2 => by omega⟩

/-- C7 counterexample: for `H = [[1, 1]]`, positions 0 and 1 share the
nonzero syndrome `[1]`, yet the construction succeeds (no
`AmbiguousSyndromeTable` flag) and the earlier entry is silently
overwritten: the lookup yields position 1. -/
theorem c7_collision_counterexample :
    syndromeCol ([[1, 1]] : Mat) 2 0 = syndromeCol [[1, 1]] 2 1
      ∧ syndromeCol ([[1, 1]] : Mat) 2 0 ≠ [0]
      ∧ generate_error_syndromes ([[1, 1]] : Mat) 2 = some [([1], 0), ([1], 1)]
      ∧ dictGet [([1], 0), ([1], 1)] [1] = some 1 :=
  ⟨by decide, by decide, by decide, by decide⟩

/-- C8 (amended): `decode` returns only the recovered message — the
quotient `poly_div(received, g)` of the possibly corrected word — while the
correction status is **printed** to the console inside `decode`, not
returned: for every length-15 received word in the demo configuration,
decode succeeds and prints exactly one status report (no-errors,
corrected word plus index, or failure notice). -/
theorem c8_decode_returns_message_prints_status (received : List Bit)
    (hlen : received.length = 15) :
    ∃ msg lines, decode received (Hmat 15 7 gDemo) gDemo = some (msg, lines)
      ∧ ((lines = [ConsoleLine.noErrors] ∧ msg = poly_div received gDemo)
        ∨ (∃ idx, lines = [ConsoleLine.correctedWord (flipBit received idx),
              ConsoleLine.correctedAt idx] ∧ msg = poly_div (flipBit received idx) gDemo)
        ∨ (lines = [ConsoleLine.failedToCorrect] ∧ msg = poly_div received gDemo)) := by
  have hsynd := matVec_npFlip_Hmat 15 7 gDemo gDemo_ne_zero received hlen
  cases hz : (((List.range (15 - 7)).map fun r =>
      (toPolyHF received %ₘ toPolyHF gDemo).coeff (15 - 7 - 1 - r)).any (· != 0)) with
  | false =>
    exact ⟨_, _, decode_eq_noErrors received _ gDemo _ hsynd hz, Or.inl ⟨rfl, rfl⟩⟩
  | true =>
    have htab : generate_error_syndromes (npFlip (Hmat 15 7 gDemo)) received.length
        = some ((List.range 15).map fun j =>
            (syndromeCol (npFlip (Hmat 15 7 gDemo)) 15 j, j)) := by
      rw [hlen]
      exact ges_eq _ 15 (npFlip_row_length _ 15 (Hmat_row_length 15 7 gDemo))
    cases hlook : dictGet ((List.range 15).map fun j =>
        (syndromeCol (npFlip (Hmat 15 7 gDemo)) 15 j, j))
        ((List.range (15 - 7)).map fun r =>
          (toPolyHF received %ₘ toPolyHF gDemo).coeff (15 - 7 - 1 - r)) with
    | none =>
      exact ⟨_, _, decode_eq_failed received _ gDemo _ _ hsynd hz htab hlook,
        Or.inr (Or.inr ⟨rfl, rfl⟩)⟩
    | some idx =>
      exact ⟨_, _, decode_eq_corrected received _ gDemo _ _ idx hsynd hz htab hlook,
        Or.inr (Or.inl ⟨idx, rfl, rfl⟩)⟩

/-- Witness for C8 at the all-zero received word. -/
theorem c8_decode_returns_message_prints_status_witness :
    (List.replicate 15 (0 : Bit)).length = 15
      ∧ ∃ msg lines,
          decode (List.replicate 15 (0 : Bit)) (Hmat 15 7 gDemo) gDemo = some (msg, lines)
          ∧ ((lines = [ConsoleLine.noErrors]
                ∧ msg = poly_div (List.replicate 15 (0 : Bit)) gDemo)
            ∨ (∃ idx, lines = [ConsoleLine.correctedWord (flipBit (List.replicate 15 (0 : Bit)) idx),
                  ConsoleLine.correctedAt idx]
                ∧ msg = poly_div (flipBit (List.replicate 15 (0 : Bit)) idx) gDemo)
            ∨ (lines = [ConsoleLine.failedToCorrect]
                ∧ msg = poly_div (List.replicate 15 (0 : Bit)) gDemo)) :=
  ⟨by decide, c8_decode_returns_message_prints_status (List.replicate 15 0) (by decide)⟩

/-- C8 counterexample: a no-error decode and a corrected decode return the
same value (the recovered message alone — no status in the return value),
while the status information is printed: the two calls print different
console reports. -/
theorem c8_status_counterexample :
    (decode (flipBit (encode demoMessage gDemo) 9) (Hmat 15 7 gDemo) gDemo).map Prod.fst
        = (decode (encode demoMessage gDemo) (Hmat 15 7 gDemo) gDemo).map Prod.fst
      ∧ (decode (flipBit (encode demoMessage gDemo) 9) (Hmat 15 7 gDemo) gDemo).map Prod.snd
          = some [ConsoleLine.correctedWord (encode demoMessage gDemo),
              ConsoleLine.correctedAt 9]
      ∧ (decode (encode demoMessage gDemo) (Hmat 15 7 gDemo) gDemo).map Prod.snd
          = some [ConsoleLine.noErrors] :=
  ⟨by decide, by decide, by decide⟩

theorem generate_matrices_some (n k : Nat) (g : List Bit) (G H : Mat)
    (hGH : generate_matrices n k g = some (G, H)) :
    G = Gmat n k g ∧ H = Hmat n k g
      ∧ (1 ≤ k → k - 1 + g.length ≤ n) ∧ k ≤ n
      ∧ (1 ≤ n → (g.all (· == 0)) ≠ true) := by
  rw [generate_matrices] at hGH
  split at hGH
  case isTrue hguard => exact absurd hGH (by simp)
  case isFalse hguard =>
    push_neg at hguard
    obtain ⟨h1, h2, h3⟩ := hguard
    have hpair := Option.some_inj.mp hGH
    exact ⟨(congrArg Prod.fst hpair).symm, (congrArg Prod.snd hpair).symm, h1, h2, h3⟩

/-- C9 (confirmed): whenever `generate_matrices` succeeds on a valid
configuration (`degree(g) = n − k`), column `j` of `H` holds exactly the
`n − k` coefficients of `x^j mod g(x)` over GF(2) — entry `(i, j)` of `H`
is coefficient `i` of the remainder — and the remainder has no nonzero
coefficients at index `n − k` or beyond (the column is genuinely the
zero-padded remainder). -/
theorem c9_parity_check_columns (n k : Nat) (g : List Bit) (G H : Mat)
    (hGH : generate_matrices n k g = some (G, H))
    (hdeg : polyDegree g = (n : Int) - (k : Int)) (j : Nat) (hj : j < n) :
    (∀ i, i < n - k →
      (H.getD i []).getD j 0
        = ((Polynomial.X ^ j : Polynomial Bit) %ₘ toPolyHF g).coeff i)
    ∧ ∀ i, n - k ≤ i → ((Polynomial.X ^ j : Polynomial Bit) %ₘ toPolyHF g).coeff i = 0 := by
  obtain ⟨hG, hH, hfit, hkn, hnz⟩ := generate_matrices_some n k g G H hGH
  subst hH
  have htglen : (trimR g.reverse).length = n - k + 1 := by
    rw [polyDegree] at hdeg
    omega
  have hgne : toPolyHF g ≠ 0 := by
    intro hh
    have h2 := (trimR_eq_nil_iff g.reverse).mpr hh
    rw [h2] at htglen
    simp at htglen
  constructor
  · intro i hi
    rw [Hmat_entry n k g i j hi hj, getD_poly_div_to_k_mod j g n i hgne]
  · intro i hi
    have hdlt := Polynomial.degree_modByMonic_lt (Polynomial.X ^ j) (monic_of_ne_zero hgne)
    have hdg : (toPolyHF g).degree = ((n - k : Nat) : WithBot ℕ) := by
      rw [Polynomial.degree_eq_natDegree hgne]
      congr 1
      have h3 := natDegL_eq_natDegree g.reverse hgne
      rw [natDegL, htglen] at h3
      have h4 : (toPolyHF g).natDegree = (toPolyL g.reverse).natDegree := rfl
      omega
    apply Polynomial.coeff_eq_zero_of_degree_lt
    rw [hdg] at hdlt
    exact lt_of_lt_of_le hdlt (by exact_mod_cast hi)

/-- Witness for C9 at the demo configuration, entry (0, 0). -/
theorem c9_parity_check_columns_witness :
    generate_matrices 15 7 gDemo = some (Gmat 15 7 gDemo, Hmat 15 7 gDemo)
      ∧ polyDegree gDemo = (15 : Int) - 7
      ∧ ((Hmat 15 7 gDemo).getD 0 []).getD 0 0
          = ((Polynomial.X ^ 0 : Polynomial Bit) %ₘ toPolyHF gDemo).coeff 0 :=
  ⟨rfl, by decide,
    (c9_parity_check_columns 15 7 gDemo _ _ rfl (by decide) 0 (by decide)).1 0 (by decide)⟩

end GF2Code
